import Mathlib

/-!
Verification development for the Properties Commander repository, a batch
frontmatter (metadata block) editor for Markdown files.  The definitions
below are a shallow embedding of the property-management code in
`src/utils/property-utils.ts`, `src/modals/*.ts`, `src/types.ts` and
`src/main.ts`; the theorems settle the frozen claims about that code.
-/

namespace PropertiesCommander

/-- The five supported value types of `src/types.ts`
(`PropertyValueType = text | number | checkbox | date | list`). -/
inductive PropertyValueType where
  | text
  | number
  | checkbox
  | date
  | list
deriving DecidableEq, Repr

/-- Property values of `src/types.ts`
(`PropertyValue = string | number | boolean | string[] | null`):
a string, a number, a boolean, a list of strings, or `null` for an
empty property. -/
inductive PropertyValue where
  | str (s : String)
  | num (n : Int)
  | bool (b : Bool)
  | list (items : List String)
  | null
deriving DecidableEq, Repr

/-- A frontmatter block: an insertion-ordered association of keys to
values, modelling the plain JS object `frontmatter` handed to the
`processFrontMatter` mutators. -/
abbrev Frontmatter := List (String × PropertyValue)

/-- The keys of a frontmatter block, in order. -/
def keysOf (fm : Frontmatter) : List String := fm.map Prod.fst

/-- Models the JS `key in frontmatter` membership test. -/
def hasKey (fm : Frontmatter) (k : String) : Bool := fm.any (fun p => p.1 == k)

/-- Models JS property read `frontmatter[key]`. -/
def lookupKey : Frontmatter → String → Option PropertyValue
  | [], _ => Option.none
  | (k0, v0) :: rest, k => if k0 = k then some v0 else lookupKey rest k

/-- Models JS assignment `frontmatter[key] = value`: an existing key keeps
its position and gets the new value; a fresh key is appended at the end. -/
def setKey : Frontmatter → String → PropertyValue → Frontmatter
  | [], k, v => [(k, v)]
  | (k0, v0) :: rest, k, v =>
      if k0 = k then (k, v) :: rest else (k0, v0) :: setKey rest k v

/-- Models JS `delete frontmatter[key]`: removes the entry for the key. -/
def deleteKey : Frontmatter → String → Frontmatter
  | [], _ => []
  | (k0, v0) :: rest, k => if k0 = k then rest else (k0, v0) :: deleteKey rest k

/-- The type guard `PropertyUtils.isPropertyValue` of
`src/utils/property-utils.ts` (lines 56-62): strings, numbers, booleans and
string arrays pass; `null` has JS `typeof` `object` and falls through to
the final `return false`. -/
def isPropertyValue : PropertyValue → Bool
  | .str _ => true
  | .num _ => true
  | .bool _ => true
  | .list _ => true
  | .null => false

/-- The test of the JS regular expression `^\d{4}-\d{2}-\d{2}$` used by
`detectValueType`: exactly four digits, a dash, two digits, a dash, two
digits. -/
def matchesDateRegex (s : String) : Bool :=
  match s.toList with
  | [c1, c2, c3, c4, d1, c5, c6, d2, c7, c8] =>
      c1.isDigit && c2.isDigit && c3.isDigit && c4.isDigit && d1 == '-' &&
      c5.isDigit && c6.isDigit && d2 == '-' && c7.isDigit && c8.isDigit
  | _ => false

/-- `PropertyUtils.detectValueType` of `src/utils/property-utils.ts`
(lines 67-73): boolean first, then number, then array, then a string
matching the date regex, and `text` for everything else (`null` matches
none of the `typeof` / `Array.isArray` tests and reaches the final
`return`). -/
def detectValueType : PropertyValue → PropertyValueType
  | .bool _ => .checkbox
  | .num _ => .number
  | .list _ => .list
  | .str s => if matchesDateRegex s then .date else .text
  | .null => .text

/-- `PropertyDefinition` of `src/types.ts`. -/
structure PropertyDefinition where
  key : String
  value : PropertyValue
  type : PropertyValueType
deriving DecidableEq, Repr

/-- The mutator body of `PropertyUtils.addPropertiesToFile`
(`src/utils/property-utils.ts` lines 78-98): for each definition, an empty
key (`if (!prop.key) continue`) is skipped, a key already in the
frontmatter is skipped, and otherwise the key is assigned and the `added`
counter incremented.  Returns the mutated block and the counter. -/
def addStep (acc : Frontmatter × Nat) (prop : PropertyDefinition) :
    Frontmatter × Nat :=
  if prop.key = "" then acc
  else if hasKey acc.1 prop.key then acc
  else (setKey acc.1 prop.key prop.value, acc.2 + 1)

/-- See the doc comment above `addStep`: the loop of
`addPropertiesToFile` folds `addStep` over the property list, starting
from the untouched block and a zero counter. -/
def addPropertiesToFile (fm : Frontmatter) (properties : List PropertyDefinition) :
    Frontmatter × Nat :=
  properties.foldl addStep (fm, 0)

/-- The mutator body of `PropertyUtils.removePropertiesFromFile`
(`src/utils/property-utils.ts` lines 103-120): each key present in the
block is deleted and counted; absent keys are skipped. -/
def removeStep (acc : Frontmatter × Nat) (k : String) : Frontmatter × Nat :=
  if hasKey acc.1 k then (deleteKey acc.1 k, acc.2 + 1) else acc

/-- See the doc comment above `removeStep`: the loop of
`removePropertiesFromFile` folds `removeStep` over the key list. -/
def removePropertiesFromFile (fm : Frontmatter) (keys : List String) :
    Frontmatter × Nat :=
  keys.foldl removeStep (fm, 0)

/-- The mutator body of `PropertyUtils.renamePropertyKey`
(`src/utils/property-utils.ts` lines 125-141): when `oldKey` is present,
`frontmatter[newKey] = frontmatter[oldKey]` then `delete
frontmatter[oldKey]`, returning `true`; otherwise the block is untouched
and the result is `false`. -/
def renamePropertyKey (fm : Frontmatter) (oldKey newKey : String) :
    Frontmatter × Bool :=
  match lookupKey fm oldKey with
  | some v => (deleteKey (setKey fm newKey v) oldKey, true)
  | Option.none => (fm, false)

/-- The result values `'updated' | 'added' | 'none'` of
`updatePropertyValue`. -/
inductive UpdateResult where
  | updated
  | added
  | none
deriving DecidableEq, Repr

/-- The mutator body of `PropertyUtils.updatePropertyValue`
(`src/utils/property-utils.ts` lines 146-169): an existing key is
overwritten (`updated`); a missing key is inserted only when
`addIfMissing` holds (`added`); otherwise nothing changes (`none`). -/
def updatePropertyValue (fm : Frontmatter) (key : String) (value : PropertyValue)
    (addIfMissing : Bool) : Frontmatter × UpdateResult :=
  if hasKey fm key then (setKey fm key value, .updated)
  else if addIfMissing then (setKey fm key value, .added)
  else (fm, .none)

/-- `PropertyUtils.getPropertiesFromFile` (`src/utils/property-utils.ts`
lines 35-51): copies into the result exactly the frontmatter entries whose
value passes the `isPropertyValue` guard, in entry order. -/
def getPropertiesFromFile (fm : Frontmatter) : Frontmatter :=
  fm.filter (fun p => isPropertyValue p.2)

/-- `ExistingProperty` of `src/types.ts`: per key, the distinct values and
distinct inferred types seen across the file set.  JS `Set`s are modelled
as insertion-ordered duplicate-free lists. -/
structure ExistingProperty where
  key : String
  values : List PropertyValue
  types : List PropertyValueType
deriving DecidableEq, Repr

/-- The aggregated map built by `loadExistingProperties`, keyed by
property name (`Map<string, ExistingProperty>` with insertion order). -/
abbrev AggMap := List (String × ExistingProperty)

/-- JS `Set.add`: appends the element only when it is not yet present. -/
def setAdd {α : Type} [DecidableEq α] (xs : List α) (x : α) : List α :=
  if xs.contains x then xs else xs ++ [x]

/-- Lookup in the aggregated map (JS `Map.get`). -/
def lookupAgg : AggMap → String → Option ExistingProperty
  | [], _ => Option.none
  | (k0, p) :: rest, k => if k0 = k then some p else lookupAgg rest k

/-- One observation step of `BasePropertiesModal.loadExistingProperties`
(`src/modals/base-properties-modal.ts` lines 105-120) for a non-`tags`
key: create the entry if needed, then add the raw value to `values` and
`detectValueType value` to `types`. -/
def aggInsert : AggMap → String → PropertyValue → AggMap
  | [], k, v => [(k, ⟨k, [v], [detectValueType v]⟩)]
  | (k0, p) :: rest, k, v =>
      if k0 = k then
        (k0, ⟨p.key, setAdd p.values v, setAdd p.types (detectValueType v)⟩) :: rest
      else (k0, p) :: aggInsert rest k v

/-- The per-entry step of `BasePropertiesModal.loadExistingProperties`
(`src/modals/base-properties-modal.ts` lines 100-122): the key `tags` is
skipped (`if (key === 'tags') continue`), every other entry is folded
into the aggregated map by `aggInsert`. -/
def aggEntryStep (m2 : AggMap) (e : String × PropertyValue) : AggMap :=
  if e.1 = "tags" then m2 else aggInsert m2 e.1 e.2

/-- See the doc comment above `aggEntryStep`: `loadExistingProperties`
folds every guarded entry of every file into the aggregated map. -/
def loadExistingProperties (files : List Frontmatter) : AggMap :=
  files.foldl (fun m fm => (getPropertiesFromFile fm).foldl aggEntryStep m) []

/-- The notification text of `AddPropertiesModal.handleSubmit`
(`src/modals/add-properties-modal.ts` line 185): always the fixed format
with both numbers interpolated, even when they are zero. -/
def addSummary (propCount filesAffected : Nat) : String :=
  "Added " ++ toString propCount ++ " property(ies) to " ++
    toString filesAffected ++ " file(s)"

/-- The notification text of `RemovePropertiesModal.handleSubmit`
(`src/modals/remove-properties-modal.ts` line 103). -/
def removeSummary (keyCount filesAffected : Nat) : String :=
  "Removed " ++ toString keyCount ++ " property(ies) from " ++
    toString filesAffected ++ " file(s)"

/-- The notification text of `RenamePropertiesModal.handleSubmit`
(`src/modals/rename-properties-modal.ts` lines 167-171): the non-zero
counters are collected as message parts and joined, with the fallback
text when no part is present. -/
def renameSummary (totalRenamed totalAdded : Nat) : String :=
  let messageParts : List String :=
    (if totalRenamed > 0 then ["renamed " ++ toString totalRenamed] else []) ++
    (if totalAdded > 0 then ["added " ++ toString totalAdded] else [])
  if messageParts.length > 0 then
    "Properties: " ++ String.intercalate ", " messageParts
  else "No changes made"

/-- The notification text of `EditValuesModal.handleSubmit`
(`src/modals/edit-values-modal.ts` lines 384-388), same shape with the
`updated` and `added` counters. -/
def editValuesSummary (totalUpdated totalAdded : Nat) : String :=
  let messageParts : List String :=
    (if totalUpdated > 0 then ["updated " ++ toString totalUpdated] else []) ++
    (if totalAdded > 0 then ["added " ++ toString totalAdded] else [])
  if messageParts.length > 0 then
    "Properties: " ++ String.intercalate ", " messageParts
  else "No changes made"

/-- The notification text of `EditPropertiesModal.handleSubmit`
(`src/modals/edit-properties-modal.ts` lines 458-463), with the `renamed`,
`updated` and `added` counters. -/
def editSummary (totalRenamed totalUpdated totalAdded : Nat) : String :=
  let messageParts : List String :=
    (if totalRenamed > 0 then ["renamed " ++ toString totalRenamed] else []) ++
    (if totalUpdated > 0 then ["updated " ++ toString totalUpdated] else []) ++
    (if totalAdded > 0 then ["added " ++ toString totalAdded] else [])
  if messageParts.length > 0 then
    "Properties: " ++ String.intercalate ", " messageParts
  else "No changes made"

/-- The batch loop of `AddPropertiesModal.handleSubmit`
(`src/modals/add-properties-modal.ts` lines 180-183): apply
`addPropertiesToFile` to every file and count the files where the result
was positive. -/
def addBatch (files : List Frontmatter) (props : List PropertyDefinition) :
    List Frontmatter × Nat :=
  files.foldl
    (fun acc fm =>
      let r := addPropertiesToFile fm props
      (acc.1 ++ [r.1], if r.2 > 0 then acc.2 + 1 else acc.2))
    ([], 0)

/-- `AddPropertiesModal.handleSubmit`
(`src/modals/add-properties-modal.ts` lines 170-187): keep the rows with a
non-empty key, abort (validation notice, no batch) when none remain, else
run the batch and build the notification. -/
def addHandleSubmit (files : List Frontmatter)
    (propertiesToAdd : List PropertyDefinition) :
    Option (List Frontmatter × String) :=
  let validProps := propertiesToAdd.filter (fun p => decide (p.key.length > 0))
  if validProps.length = 0 then Option.none
  else
    let r := addBatch files validProps
    some (r.1, addSummary validProps.length r.2)

/-- `PropertyRename` of `src/types.ts`: one row of the rename modal. -/
structure PropertyRename where
  originalKey : String
  newKey : String
  enabled : Bool
deriving DecidableEq, Repr

/-- The filter of `RenamePropertiesModal.handleSubmit`
(`src/modals/rename-properties-modal.ts` lines 140-142): only rows that
are enabled, actually change the key, and have a non-empty new key are
applied. -/
def enabledRenamesOf (renames : List PropertyRename) : List PropertyRename :=
  renames.filter
    (fun r => r.enabled && r.originalKey != r.newKey && decide (r.newKey.length > 0))

/-- `PropertyEdit` of `src/types.ts`: one row of the edit modal, carrying
both a possible key rename and a possible value update. -/
structure PropertyEdit where
  originalKey : String
  newKey : String
  enabled : Bool
  updateValue : Bool
  type : PropertyValueType
  value : PropertyValue
  originalValue : PropertyValue
deriving DecidableEq, Repr

/-- The three counters accumulated by `EditPropertiesModal.handleSubmit`. -/
structure EditCounters where
  renamed : Nat
  updated : Nat
  added : Nat
deriving DecidableEq, Repr

/-- The inner loop body of `EditPropertiesModal.handleSubmit`
(`src/modals/edit-properties-modal.ts` lines 432-455) for one file and one
enabled edit: compute `keyRenamed` and `targetKey`, apply the rename
first when the key changed, then apply the value update to `targetKey`
when `updateValue` is set.  Returns the mutated block and the counter
increments. -/
def applyEditToFile (fm : Frontmatter) (edit : PropertyEdit)
    (addToFilesWithoutProperty : Bool) : Frontmatter × EditCounters :=
  let keyRenamed : Bool :=
    edit.originalKey != edit.newKey && decide (edit.newKey.length > 0)
  let targetKey := if keyRenamed then edit.newKey else edit.originalKey
  let step1 : Frontmatter × Nat :=
    if keyRenamed then
      let r := renamePropertyKey fm edit.originalKey edit.newKey
      (r.1, if r.2 then 1 else 0)
    else (fm, 0)
  if edit.updateValue then
    let r := updatePropertyValue step1.1 targetKey edit.value addToFilesWithoutProperty
    (r.1,
      ⟨step1.2,
        if r.2 = UpdateResult.updated then 1 else 0,
        if r.2 = UpdateResult.added then 1 else 0⟩)
  else (step1.1, ⟨step1.2, 0, 0⟩)

/-- A folder's ordered child list (`folder.children` in Obsidian's vault
tree), written as an inductively defined forest so recursion into a
subfolder is structural: `consFile` is a file child with its basename and
extension, `consDir` is a subfolder child carrying its own children. -/
inductive Forest where
  | nil
  | consFile (basename extension : String) (rest : Forest)
  | consDir (dirname : String) (children : Forest) (rest : Forest)
deriving DecidableEq, Repr

/-- A file reference in the traversal output: basename and extension. -/
abbrev FileRef := String × String

/-- `PropertyUtils.getFilesFromFolder` (`src/utils/property-utils.ts`
lines 13-30), iterating a folder's children in order: a child file is
emitted when its extension is `md`; a child folder is recursed into, with
`currentDepth + 1`, exactly when `includeSubfolders` holds and
`depthLevel === -1 || currentDepth < depthLevel`, and its files are
spliced in at the child's position. -/
def getFilesFromFolder (includeSubfolders : Bool) (depthLevel : Int) :
    Forest → Int → List FileRef
  | .nil, _ => []
  | .consFile b e rest, currentDepth =>
      (if e = "md" then [(b, e)] else []) ++
        getFilesFromFolder includeSubfolders depthLevel rest currentDepth
  | .consDir _ children rest, currentDepth =>
      (if includeSubfolders && (depthLevel == -1 || decide (currentDepth < depthLevel))
       then getFilesFromFolder includeSubfolders depthLevel children (currentDepth + 1)
       else []) ++
        getFilesFromFolder includeSubfolders depthLevel rest currentDepth

/-- Reference enumeration: every Markdown file in the whole subtree, in
the same splice-in-place order as the traversal. -/
def allMdFiles : Forest → List FileRef
  | .nil => []
  | .consFile b e rest => (if e = "md" then [(b, e)] else []) ++ allMdFiles rest
  | .consDir _ children rest => allMdFiles children ++ allMdFiles rest

/-- Reference enumeration: only the direct Markdown file children, no
descent into subfolders. -/
def directMdFiles : Forest → List FileRef
  | .nil => []
  | .consFile b e rest => (if e = "md" then [(b, e)] else []) ++ directMdFiles rest
  | .consDir _ _ rest => directMdFiles rest

/-- Reference enumeration: Markdown files found by descending at most `d`
levels below the current folder (`d = 0` keeps only direct children). -/
def mdFilesToDepth : Forest → Nat → List FileRef
  | .nil, _ => []
  | .consFile b e rest, d => (if e = "md" then [(b, e)] else []) ++ mdFilesToDepth rest d
  | .consDir _ children rest, d =>
      (match d with
       | 0 => []
       | d2 + 1 => mdFilesToDepth children d2) ++ mdFilesToDepth rest d

/-- The number of Markdown file nodes in the whole subtree. -/
def countMd : Forest → Nat
  | .nil => 0
  | .consFile _ e rest => (if e = "md" then 1 else 0) + countMd rest
  | .consDir _ children rest => countMd children + countMd rest

/-- Concatenation of two child lists, used to state how the traversal
respects the native child ordering. -/
def forestAppend : Forest → Forest → Forest
  | .nil, g => g
  | .consFile b e rest, g => .consFile b e (forestAppend rest g)
  | .consDir n children rest, g => .consDir n children (forestAppend rest g)

/-! ### Lemmas about the frontmatter primitives -/

theorem hasKey_cons (k0 : String) (v0 : PropertyValue) (tl : Frontmatter)
    (k : String) : hasKey ((k0, v0) :: tl) k = ((k0 == k) || hasKey tl k) := rfl

theorem lookupKey_setKey_self (fm : Frontmatter) (k : String) (v : PropertyValue) :
    lookupKey (setKey fm k v) k = some v := by
  induction fm with
  | nil => simp [setKey, lookupKey]
  | cons hd tl ih =>
      obtain ⟨k0, v0⟩ := hd
      by_cases h : k0 = k
      · simp [setKey, h, lookupKey]
      · simp [setKey, h, lookupKey, ih]

theorem lookupKey_setKey_ne (fm : Frontmatter) (k k2 : String) (v : PropertyValue)
    (h : k2 ≠ k) : lookupKey (setKey fm k v) k2 = lookupKey fm k2 := by
  have h2 : ¬ k = k2 := Ne.symm h
  induction fm with
  | nil => simp [setKey, lookupKey, h2]
  | cons hd tl ih =>
      obtain ⟨k0, v0⟩ := hd
      by_cases h0 : k0 = k
      · subst h0
        simp [setKey, lookupKey, h2]
      · simp [setKey, h0, lookupKey, ih]

theorem hasKey_eq_isSome (fm : Frontmatter) (k : String) :
    hasKey fm k = (lookupKey fm k).isSome := by
  induction fm with
  | nil => simp [hasKey, lookupKey]
  | cons hd tl ih =>
      obtain ⟨k0, v0⟩ := hd
      by_cases h : k0 = k
      · simp [hasKey_cons, lookupKey, h]
      · simp [hasKey_cons, lookupKey, h, ih]

theorem hasKey_setKey_self (fm : Frontmatter) (k : String) (v : PropertyValue) :
    hasKey (setKey fm k v) k = true := by
  simp [hasKey_eq_isSome, lookupKey_setKey_self]

theorem hasKey_setKey_ne (fm : Frontmatter) (k k2 : String) (v : PropertyValue)
    (h : k2 ≠ k) : hasKey (setKey fm k v) k2 = hasKey fm k2 := by
  simp [hasKey_eq_isSome, lookupKey_setKey_ne fm k k2 v h]

theorem lookupKey_deleteKey_ne (fm : Frontmatter) (k k2 : String)
    (h : k2 ≠ k) : lookupKey (deleteKey fm k) k2 = lookupKey fm k2 := by
  have h2 : ¬ k = k2 := Ne.symm h
  induction fm with
  | nil => simp [deleteKey]
  | cons hd tl ih =>
      obtain ⟨k0, v0⟩ := hd
      by_cases h0 : k0 = k
      · subst h0
        simp [deleteKey, lookupKey, h2]
      · simp [deleteKey, h0, lookupKey, ih]

theorem hasKey_deleteKey_ne (fm : Frontmatter) (k k2 : String)
    (h : k2 ≠ k) : hasKey (deleteKey fm k) k2 = hasKey fm k2 := by
  simp [hasKey_eq_isSome, lookupKey_deleteKey_ne fm k k2 h]

theorem mem_keysOf_of_hasKey (fm : Frontmatter) (k : String)
    (h : hasKey fm k = true) : k ∈ keysOf fm := by
  simp only [hasKey, List.any_eq_true] at h
  obtain ⟨p, hp, hpk⟩ := h
  simp only [keysOf, List.mem_map]
  exact ⟨p, hp, by simpa using hpk⟩

theorem hasKey_of_mem_keysOf (fm : Frontmatter) (k : String)
    (h : k ∈ keysOf fm) : hasKey fm k = true := by
  simp only [keysOf, List.mem_map] at h
  obtain ⟨p, hp, hpk⟩ := h
  simp only [hasKey, List.any_eq_true]
  exact ⟨p, hp, by simp [hpk]⟩

theorem keysOf_setKey (fm : Frontmatter) (k : String) (v : PropertyValue) :
    keysOf (setKey fm k v) =
      if hasKey fm k then keysOf fm else keysOf fm ++ [k] := by
  induction fm with
  | nil => simp [setKey, keysOf, hasKey]
  | cons hd tl ih =>
      obtain ⟨k0, v0⟩ := hd
      by_cases h : k0 = k
      · subst h
        simp [setKey, keysOf, hasKey_cons]
      · rw [show setKey ((k0, v0) :: tl) k v = (k0, v0) :: setKey tl k v by
          simp [setKey, h]]
        rw [show keysOf ((k0, v0) :: setKey tl k v) = k0 :: keysOf (setKey tl k v)
          from rfl]
        rw [show keysOf ((k0, v0) :: tl) = k0 :: keysOf tl from rfl]
        rw [hasKey_cons, ih]
        have hb : (k0 == k) = false := by simpa using h
        by_cases h2 : hasKey tl k
        · simp [h2, hb]
        · simp only [Bool.not_eq_true] at h2
          simp [h2, hb]

theorem nodup_keysOf_setKey (fm : Frontmatter) (k : String) (v : PropertyValue)
    (h : (keysOf fm).Nodup) : (keysOf (setKey fm k v)).Nodup := by
  rw [keysOf_setKey]
  by_cases h2 : hasKey fm k
  · simpa [h2]
  · have hk : k ∉ keysOf fm := fun hmem => h2 (hasKey_of_mem_keysOf fm k hmem)
    simp [h2, List.nodup_append, h, hk]

theorem hasKey_deleteKey_self (fm : Frontmatter) (k : String)
    (h : (keysOf fm).Nodup) : hasKey (deleteKey fm k) k = false := by
  induction fm with
  | nil => simp [deleteKey, hasKey]
  | cons hd tl ih =>
      obtain ⟨k0, v0⟩ := hd
      rw [show keysOf ((k0, v0) :: tl) = k0 :: keysOf tl from rfl,
        List.nodup_cons] at h
      by_cases h0 : k0 = k
      · subst h0
        rw [show deleteKey ((k0, v0) :: tl) k0 = tl by simp [deleteKey]]
        by_cases h3 : hasKey tl k0
        · exact absurd (mem_keysOf_of_hasKey tl k0 h3) h.1
        · simpa using h3
      · rw [show deleteKey ((k0, v0) :: tl) k = (k0, v0) :: deleteKey tl k by
          simp [deleteKey, h0]]
        rw [hasKey_cons, ih h.2]
        simpa using h0

theorem setKey_of_lookup_eq (fm : Frontmatter) (k : String) (v : PropertyValue)
    (h : lookupKey fm k = some v) : setKey fm k v = fm := by
  induction fm with
  | nil => simp [lookupKey] at h
  | cons hd tl ih =>
      obtain ⟨k0, v0⟩ := hd
      by_cases h0 : k0 = k
      · subst h0
        rw [show lookupKey ((k0, v0) :: tl) k0 = some v0 by simp [lookupKey]] at h
        obtain rfl : v0 = v := by simpa using h
        simp [setKey]
      · simp only [lookupKey, if_neg h0] at h
        simp [setKey, h0, ih h]

theorem length_setKey_absent (fm : Frontmatter) (k : String) (v : PropertyValue)
    (h : hasKey fm k = false) : (setKey fm k v).length = fm.length + 1 := by
  induction fm with
  | nil => simp [setKey]
  | cons hd tl ih =>
      obtain ⟨k0, v0⟩ := hd
      rw [hasKey_cons, Bool.or_eq_false_iff] at h
      have h0 : ¬ k0 = k := by simpa using h.1
      simp [setKey, h0, ih h.2]

/-! ### Lemmas about the add fold -/

theorem add_fold_preserves (props : List PropertyDefinition) :
    ∀ (acc : Frontmatter × Nat) (k : String), hasKey acc.1 k = true →
      lookupKey (props.foldl addStep acc).1 k = lookupKey acc.1 k := by
  induction props with
  | nil => intro acc k _; rfl
  | cons p rest ih =>
      intro acc k h
      rw [List.foldl_cons]
      by_cases h1 : p.key = ""
      · rw [show addStep acc p = acc by simp [addStep, h1]]
        exact ih acc k h
      · by_cases h2 : hasKey acc.1 p.key
        · rw [show addStep acc p = acc by simp [addStep, h1, h2]]
          exact ih acc k h
        · have hne : k ≠ p.key := by
            intro hk
            rw [hk] at h
            exact h2 h
          rw [show addStep acc p = (setKey acc.1 p.key p.value, acc.2 + 1) by
            simp [addStep, h1, h2]]
          rw [ih (setKey acc.1 p.key p.value, acc.2 + 1) k
            (by simpa [hasKey_setKey_ne acc.1 p.key k p.value hne] using h)]
          exact lookupKey_setKey_ne acc.1 p.key k p.value hne

theorem add_fold_length (props : List PropertyDefinition) :
    ∀ acc : Frontmatter × Nat,
      (props.foldl addStep acc).1.length + acc.2
        = acc.1.length + (props.foldl addStep acc).2 := by
  induction props with
  | nil => intro acc; rw [List.foldl_nil]
  | cons p rest ih =>
      intro acc
      rw [List.foldl_cons]
      by_cases h1 : p.key = ""
      · rw [show addStep acc p = acc by simp [addStep, h1]]
        exact ih acc
      · by_cases h2 : hasKey acc.1 p.key
        · rw [show addStep acc p = acc by simp [addStep, h1, h2]]
          exact ih acc
        · rw [show addStep acc p = (setKey acc.1 p.key p.value, acc.2 + 1) by
            simp [addStep, h1, h2]]
          have h3 := ih (setKey acc.1 p.key p.value, acc.2 + 1)
          have h4 := length_setKey_absent acc.1 p.key p.value (by simpa using h2)
          simp only [h4] at h3
          omega

/-! ### Claim theorems -/

/-- Claim C1: `updatePropertyValue` overwrites an existing key and reports
`updated`; on a missing key it inserts and reports `added` when
`addIfMissing` is set, and otherwise reports `none` leaving the block
unchanged.  In the two writing cases the key maps to the new value
afterwards and every other key keeps its binding. -/
theorem updatePropertyValue_spec (fm : Frontmatter) (k : String)
    (v : PropertyValue) (addIfMissing : Bool) :
    (hasKey fm k = true →
      (updatePropertyValue fm k v addIfMissing).2 = UpdateResult.updated ∧
      lookupKey (updatePropertyValue fm k v addIfMissing).1 k = some v ∧
      ∀ k2, k2 ≠ k →
        lookupKey (updatePropertyValue fm k v addIfMissing).1 k2 = lookupKey fm k2) ∧
    (hasKey fm k = false → addIfMissing = true →
      (updatePropertyValue fm k v addIfMissing).2 = UpdateResult.added ∧
      lookupKey (updatePropertyValue fm k v addIfMissing).1 k = some v ∧
      ∀ k2, k2 ≠ k →
        lookupKey (updatePropertyValue fm k v addIfMissing).1 k2 = lookupKey fm k2) ∧
    (hasKey fm k = false → addIfMissing = false →
      updatePropertyValue fm k v addIfMissing = (fm, UpdateResult.none)) := by
  refine ⟨fun h => ?_, fun h ha => ?_, fun h ha => ?_⟩
  · rw [updatePropertyValue, if_pos h]
    exact ⟨rfl, lookupKey_setKey_self fm k v,
      fun k2 h2 => lookupKey_setKey_ne fm k k2 v h2⟩
  · subst ha
    rw [updatePropertyValue, if_neg (by simp [h]), if_pos rfl]
    exact ⟨rfl, lookupKey_setKey_self fm k v,
      fun k2 h2 => lookupKey_setKey_ne fm k k2 v h2⟩
  · subst ha
    rw [updatePropertyValue, if_neg (by simp [h]), if_neg (by simp)]

/-- Concrete instance of `updatePropertyValue_spec` covering all three
cases. -/
theorem updatePropertyValue_spec_witness :
    (updatePropertyValue [("a", PropertyValue.str "x")] "a"
        (PropertyValue.str "y") false).2 = UpdateResult.updated ∧
    (updatePropertyValue [] "b" (PropertyValue.str "z") true).2
        = UpdateResult.added ∧
    updatePropertyValue [] "c" (PropertyValue.str "w") false
        = ([], UpdateResult.none) :=
  ⟨((updatePropertyValue_spec [("a", PropertyValue.str "x")] "a"
      (PropertyValue.str "y") false).1 (by decide)).1,
   ((updatePropertyValue_spec [] "b" (PropertyValue.str "z") true).2.1
      (by decide) rfl).1,
   (updatePropertyValue_spec [] "c" (PropertyValue.str "w") false).2.2
      (by decide) rfl⟩

/-- Claim C2: `detectValueType` is a pure function applying the priority
order boolean to checkbox, number to number, string list to list, a
string matching the date regular expression to date, and anything else
(`null` included) to text; evaluating it twice on the same value yields
the same tag. -/
theorem detectValueType_spec :
    (∀ b, detectValueType (PropertyValue.bool b) = PropertyValueType.checkbox) ∧
    (∀ n, detectValueType (PropertyValue.num n) = PropertyValueType.number) ∧
    (∀ l, detectValueType (PropertyValue.list l) = PropertyValueType.list) ∧
    (∀ s, matchesDateRegex s = true →
      detectValueType (PropertyValue.str s) = PropertyValueType.date) ∧
    (∀ s, matchesDateRegex s = false →
      detectValueType (PropertyValue.str s) = PropertyValueType.text) ∧
    detectValueType PropertyValue.null = PropertyValueType.text ∧
    (∀ v, detectValueType v = detectValueType v) :=
  ⟨fun _ => rfl, fun _ => rfl, fun _ => rfl,
   fun s h => by simp [detectValueType, h],
   fun s h => by simp [detectValueType, h],
   rfl, fun _ => rfl⟩

/-- Concrete instance of `detectValueType_spec` for the two string
cases. -/
theorem detectValueType_spec_witness :
    detectValueType (PropertyValue.str "2024-01-15") = PropertyValueType.date ∧
    detectValueType (PropertyValue.str "hello") = PropertyValueType.text :=
  ⟨detectValueType_spec.2.2.2.1 "2024-01-15" (by decide),
   detectValueType_spec.2.2.2.2.1 "hello" (by decide)⟩

/-- Claim C3: `addPropertiesToFile` never overwrites a key already present
(its binding is preserved), its counter equals the number of entries the
block actually grew by, and running it twice with the same single-key list
leaves the block of the first run unchanged and reports 0 insertions the
second time. -/
theorem addPropertiesToFile_spec (fm : Frontmatter)
    (props : List PropertyDefinition) (p : PropertyDefinition) (k : String) :
    (hasKey fm k = true →
      lookupKey (addPropertiesToFile fm props).1 k = lookupKey fm k) ∧
    ((addPropertiesToFile fm props).1.length
      = fm.length + (addPropertiesToFile fm props).2) ∧
    (addPropertiesToFile (addPropertiesToFile fm [p]).1 [p]
      = ((addPropertiesToFile fm [p]).1, 0)) := by
  refine ⟨fun h => add_fold_preserves props (fm, 0) k h, ?_, ?_⟩
  · have h := add_fold_length props (fm, 0)
    simpa [addPropertiesToFile] using h
  · have hsingle : ∀ fm2 : Frontmatter, addPropertiesToFile fm2 [p] = addStep (fm2, 0) p :=
      fun fm2 => by simp [addPropertiesToFile]
    rw [hsingle fm, hsingle (addStep (fm, 0) p).1]
    by_cases h1 : p.key = ""
    · simp [addStep, h1]
    · by_cases h2 : hasKey fm p.key
      · simp [addStep, h1, h2]
      · rw [show addStep (fm, 0) p = (setKey fm p.key p.value, 1) by
          simp [addStep, h1, h2]]
        simp [addStep, h1, hasKey_setKey_self]

/-- Concrete instance of `addPropertiesToFile_spec`: a present key keeps
its value, and the second identical run is a counted no-op. -/
theorem addPropertiesToFile_spec_witness :
    lookupKey (addPropertiesToFile [("k", PropertyValue.str "v")]
        [⟨"k", PropertyValue.str "w", PropertyValueType.text⟩]).1 "k"
      = lookupKey [("k", PropertyValue.str "v")] "k" ∧
    addPropertiesToFile
        (addPropertiesToFile []
          [⟨"k", PropertyValue.str "w", PropertyValueType.text⟩]).1
        [⟨"k", PropertyValue.str "w", PropertyValueType.text⟩]
      = ((addPropertiesToFile []
          [⟨"k", PropertyValue.str "w", PropertyValueType.text⟩]).1, 0) :=
  ⟨(addPropertiesToFile_spec [("k", PropertyValue.str "v")]
      [⟨"k", PropertyValue.str "w", PropertyValueType.text⟩]
      ⟨"k", PropertyValue.str "w", PropertyValueType.text⟩ "k").1 (by decide),
   (addPropertiesToFile_spec []
      [⟨"k", PropertyValue.str "w", PropertyValueType.text⟩]
      ⟨"k", PropertyValue.str "w", PropertyValueType.text⟩ "k").2.2⟩

/-- Claim C4: when an enabled edit combines a key rename with a value
update and the original key is present, the edit modal applies the rename
to the file first and the subsequent value update targets the new key
name: afterwards the new key holds the edited value, the original key is
gone, and the counters record one rename and one update (the update found
the new key already present, so nothing was counted as added). -/
theorem applyEditToFile_rename_then_update (fm : Frontmatter)
    (edit : PropertyEdit) (addMissing : Bool)
    (hupd : edit.updateValue = true)
    (hne : edit.originalKey ≠ edit.newKey)
    (hlen : edit.newKey.length > 0)
    (hpresent : hasKey fm edit.originalKey = true)
    (hnodup : (keysOf fm).Nodup) :
    lookupKey (applyEditToFile fm edit addMissing).1 edit.newKey
      = some edit.value ∧
    hasKey (applyEditToFile fm edit addMissing).1 edit.originalKey = false ∧
    (applyEditToFile fm edit addMissing).2 = ⟨1, 1, 0⟩ := by
  obtain ⟨w, hw⟩ : ∃ w, lookupKey fm edit.originalKey = some w := by
    rw [hasKey_eq_isSome] at hpresent
    exact Option.isSome_iff_exists.mp hpresent
  have hne2 : edit.newKey ≠ edit.originalKey := Ne.symm hne
  have hkr : (edit.originalKey != edit.newKey
      && decide (edit.newKey.length > 0)) = true := by
    simp [hne, hlen]
  have hfm1 : renamePropertyKey fm edit.originalKey edit.newKey
      = (deleteKey (setKey fm edit.newKey w) edit.originalKey, true) := by
    rw [renamePropertyKey, hw]
  have hhk1 : hasKey (deleteKey (setKey fm edit.newKey w) edit.originalKey)
      edit.newKey = true := by
    rw [hasKey_deleteKey_ne _ _ _ hne2, hasKey_setKey_self]
  have hupd2 : updatePropertyValue
      (deleteKey (setKey fm edit.newKey w) edit.originalKey)
      edit.newKey edit.value addMissing
      = (setKey (deleteKey (setKey fm edit.newKey w) edit.originalKey)
          edit.newKey edit.value, UpdateResult.updated) := by
    rw [updatePropertyValue, if_pos hhk1]
  have happly : applyEditToFile fm edit addMissing
      = (setKey (deleteKey (setKey fm edit.newKey w) edit.originalKey)
          edit.newKey edit.value, ⟨1, 1, 0⟩) := by
    rw [applyEditToFile]
    rw [hkr]
    simp only [if_true, hupd, hfm1, hupd2]
    rfl
  rw [happly]
  refine ⟨lookupKey_setKey_self _ _ _, ?_, rfl⟩
  rw [hasKey_setKey_ne _ _ _ _ hne]
  exact hasKey_deleteKey_self _ _ (nodup_keysOf_setKey fm edit.newKey w hnodup)

/-- Concrete instance of `applyEditToFile_rename_then_update`. -/
theorem applyEditToFile_rename_then_update_witness :
    lookupKey (applyEditToFile [("old", PropertyValue.str "x")]
        ⟨"old", "new", true, true, PropertyValueType.text,
          PropertyValue.str "y", PropertyValue.str "x"⟩ false).1 "new"
      = some (PropertyValue.str "y") ∧
    hasKey (applyEditToFile [("old", PropertyValue.str "x")]
        ⟨"old", "new", true, true, PropertyValueType.text,
          PropertyValue.str "y", PropertyValue.str "x"⟩ false).1 "old" = false ∧
    (applyEditToFile [("old", PropertyValue.str "x")]
        ⟨"old", "new", true, true, PropertyValueType.text,
          PropertyValue.str "y", PropertyValue.str "x"⟩ false).2 = ⟨1, 1, 0⟩ :=
  applyEditToFile_rename_then_update [("old", PropertyValue.str "x")]
    ⟨"old", "new", true, true, PropertyValueType.text,
      PropertyValue.str "y", PropertyValue.str "x"⟩ false
    rfl (by decide) (by decide) (by decide) (by decide)

/-- Claim C10: `renamePropertyKey` with `oldKey = newKey = k` on a block
containing `k` deletes the key entirely and still returns `true`; the
function has no self-rename guard, only the callers filter that case out:
the rename modal keeps only rows whose new key differs from the original,
and the edit modal performs no rename when the keys are equal. -/
theorem renamePropertyKey_self_spec (fm : Frontmatter) (k : String)
    (v : PropertyValue) (hv : lookupKey fm k = some v)
    (hnodup : (keysOf fm).Nodup) :
    renamePropertyKey fm k k = (deleteKey fm k, true) ∧
    hasKey (renamePropertyKey fm k k).1 k = false ∧
    (∀ renames r, r ∈ enabledRenamesOf renames → r.originalKey ≠ r.newKey) ∧
    (∀ (fm2 : Frontmatter) (edit : PropertyEdit) (add : Bool),
      edit.originalKey = edit.newKey →
        (applyEditToFile fm2 edit add).2.renamed = 0) := by
  have h1 : renamePropertyKey fm k k = (deleteKey fm k, true) := by
    have h2 := setKey_of_lookup_eq fm k v hv
    simp [renamePropertyKey, hv, h2]
  refine ⟨h1, ?_, ?_, ?_⟩
  · rw [h1]
    exact hasKey_deleteKey_self fm k hnodup
  · intro renames r hr
    rw [enabledRenamesOf, List.mem_filter] at hr
    have hb := hr.2
    simp only [Bool.and_eq_true, bne_iff_ne] at hb
    exact hb.1.2
  · intro fm2 edit add hself
    have hkr : (edit.originalKey != edit.newKey
        && decide (edit.newKey.length > 0)) = false := by
      simp [hself]
    by_cases hu : edit.updateValue
    · simp [applyEditToFile, hkr, hu]
    · simp [applyEditToFile, hkr, hu]

/-- Concrete instance of `renamePropertyKey_self_spec`: a self-rename of
a present key removes it and reports success. -/
theorem renamePropertyKey_self_spec_witness :
    renamePropertyKey [("a", PropertyValue.str "x"), ("b", PropertyValue.num 3)]
        "a" "a"
      = ([("b", PropertyValue.num 3)], true) :=
  (renamePropertyKey_self_spec
    [("a", PropertyValue.str "x"), ("b", PropertyValue.num 3)] "a"
    (PropertyValue.str "x") (by decide) (by decide)).1

/-! ### Lemmas about aggregation and the remove fold -/

theorem lookupAgg_aggInsert_ne (m : AggMap) (k k2 : String) (v : PropertyValue)
    (h : k ≠ k2) : lookupAgg (aggInsert m k v) k2 = lookupAgg m k2 := by
  have h2 : ¬ k = k2 := h
  induction m with
  | nil => simp [aggInsert, lookupAgg, h2]
  | cons hd tl ih =>
      obtain ⟨k0, p⟩ := hd
      by_cases h0 : k0 = k
      · subst h0
        simp [aggInsert, lookupAgg, h2]
      · simp [aggInsert, h0, lookupAgg, ih]

theorem agg_entry_fold_no_tags (entries : List (String × PropertyValue)) :
    ∀ m : AggMap, lookupAgg m "tags" = Option.none →
      lookupAgg (entries.foldl aggEntryStep m) "tags" = Option.none := by
  induction entries with
  | nil => intro m h; exact h
  | cons e rest ih =>
      intro m h
      rw [List.foldl_cons]
      by_cases h0 : e.1 = "tags"
      · rw [show aggEntryStep m e = m by simp [aggEntryStep, h0]]
        exact ih m h
      · rw [show aggEntryStep m e = aggInsert m e.1 e.2 by simp [aggEntryStep, h0]]
        exact ih (aggInsert m e.1 e.2)
          (by rw [lookupAgg_aggInsert_ne m e.1 "tags" e.2 h0]; exact h)

theorem remove_fold_no_tags (keys : List String) :
    ∀ acc : Frontmatter × Nat, ¬ "tags" ∈ keys →
      lookupKey (keys.foldl removeStep acc).1 "tags" = lookupKey acc.1 "tags" := by
  induction keys with
  | nil => intro acc _; rfl
  | cons k rest ih =>
      intro acc h
      have hk : "tags" ≠ k := fun h2 => h (by rw [h2]; exact List.mem_cons_self k rest)
      have hrest : ¬ "tags" ∈ rest := fun h2 => h (List.mem_cons_of_mem k h2)
      rw [List.foldl_cons]
      by_cases h2 : hasKey acc.1 k
      · rw [show removeStep acc k = (deleteKey acc.1 k, acc.2 + 1) by
          simp [removeStep, h2]]
        rw [ih (deleteKey acc.1 k, acc.2 + 1) hrest]
        exact lookupKey_deleteKey_ne acc.1 k "tags" hk
      · rw [show removeStep acc k = acc by simp [removeStep, h2]]
        exact ih acc hrest

/-- Counterexample to claim C6 as stated: typing `tags` as the key in the
add modal writes the reserved key into a file's metadata block; nothing on
the write path filters it. -/
theorem tags_written_counterexample :
    addHandleSubmit [[]]
        [⟨"tags", PropertyValue.str "x", PropertyValueType.text⟩]
      = some ([[("tags", PropertyValue.str "x")]],
          "Added 1 property(ies) to 1 file(s)") ∧
    lookupKey [("tags", PropertyValue.str "x")] "tags"
      = some (PropertyValue.str "x") := by decide

/-- Claim C6 as amended: aggregation never reads `tags` into the map, and
the operations whose keys come from the aggregation never touch a file's
`tags` entry: removing a key set without `tags` and updating a key other
than `tags` both leave the `tags` binding unchanged.  (The add modal and
the rename target key are free user text and can write `tags`.) -/
theorem tags_excluded_spec (files : List Frontmatter) (fm : Frontmatter)
    (keys : List String) (k : String) (v : PropertyValue) (add : Bool) :
    lookupAgg (loadExistingProperties files) "tags" = Option.none ∧
    (¬ "tags" ∈ keys →
      lookupKey (removePropertiesFromFile fm keys).1 "tags"
        = lookupKey fm "tags") ∧
    (k ≠ "tags" →
      lookupKey (updatePropertyValue fm k v add).1 "tags"
        = lookupKey fm "tags") := by
  refine ⟨?_, fun h => remove_fold_no_tags keys (fm, 0) h, fun h => ?_⟩
  · rw [loadExistingProperties]
    have haux : ∀ (fs : List Frontmatter) (m : AggMap),
        lookupAgg m "tags" = Option.none →
        lookupAgg (fs.foldl
          (fun m2 fm2 => (getPropertiesFromFile fm2).foldl aggEntryStep m2) m)
          "tags" = Option.none := by
      intro fs
      induction fs with
      | nil => intro m h; exact h
      | cons f rest ih =>
          intro m h
          rw [List.foldl_cons]
          exact ih _ (agg_entry_fold_no_tags (getPropertiesFromFile f) m h)
    exact haux files [] rfl
  · have hk : ("tags" : String) ≠ k := Ne.symm h
    rw [updatePropertyValue]
    by_cases h2 : hasKey fm k
    · rw [if_pos h2]
      exact lookupKey_setKey_ne fm k "tags" v hk
    · rw [if_neg (by simp [h2])]
      by_cases h3 : add
      · rw [if_pos h3]
        exact lookupKey_setKey_ne fm k "tags" v hk
      · rw [if_neg h3]

/-- Concrete instance of `tags_excluded_spec`: aggregating a file whose
block holds `tags` drops it, and removing or updating other keys leaves
the `tags` binding alone. -/
theorem tags_excluded_spec_witness :
    lookupAgg (loadExistingProperties
        [[("a", PropertyValue.str "x"), ("tags", PropertyValue.list ["t"])]])
      "tags" = Option.none ∧
    lookupKey (removePropertiesFromFile
        [("a", PropertyValue.str "x"), ("tags", PropertyValue.list ["t"])]
        ["a"]).1 "tags"
      = lookupKey [("a", PropertyValue.str "x"),
          ("tags", PropertyValue.list ["t"])] "tags" ∧
    lookupKey (updatePropertyValue
        [("a", PropertyValue.str "x"), ("tags", PropertyValue.list ["t"])]
        "a" (PropertyValue.str "y") false).1 "tags"
      = lookupKey [("a", PropertyValue.str "x"),
          ("tags", PropertyValue.list ["t"])] "tags" :=
  ⟨(tags_excluded_spec
      [[("a", PropertyValue.str "x"), ("tags", PropertyValue.list ["t"])]]
      [] [] "a" (PropertyValue.str "y") false).1,
   (tags_excluded_spec []
      [("a", PropertyValue.str "x"), ("tags", PropertyValue.list ["t"])]
      ["a"] "a" (PropertyValue.str "y") false).2.1 (by decide),
   (tags_excluded_spec []
      [("a", PropertyValue.str "x"), ("tags", PropertyValue.list ["t"])]
      [] "a" (PropertyValue.str "y") false).2.2 (by decide)⟩

/-- Claim C7, evaluated at the failing input: the `isPropertyValue` guard
rejects `null`, so a key whose value is `null` is dropped by
`getPropertiesFromFile` and never reaches the aggregated map, instead of
being recorded with its `Absent` value as the claim (and the code's own
comment "including null for empty properties") requires. -/
theorem null_value_dropped :
    isPropertyValue PropertyValue.null = false ∧
    getPropertiesFromFile [("status", PropertyValue.null)] = [] ∧
    loadExistingProperties [[("status", PropertyValue.null)]] = [] := by decide

/-- Counterexample to claim C5 as stated: an add batch over a file that
already has the key changes nothing (every change counter is zero), yet
the summary is the fixed-format add message containing the zero counter,
not the text announcing that no changes were made. -/
theorem addSummary_zero_changes_counterexample :
    addHandleSubmit [[("a", PropertyValue.str "x")]]
        [⟨"a", PropertyValue.str "y", PropertyValueType.text⟩]
      = some ([[("a", PropertyValue.str "x")]],
          "Added 1 property(ies) to 0 file(s)") ∧
    "Added 1 property(ies) to 0 file(s)" ≠ "no changes made" ∧
    "Added 1 property(ies) to 0 file(s)" ≠ "No changes made" := by decide

/-- Claim C5 as amended: the rename and update-values batch summaries are
composed only of the non-zero counters and fall back to the explicit text
when every counter is zero, while the add and remove batches always emit
their fixed-format message with both numbers, zero or not; no operation
ever produces an empty summary. -/
theorem summaries_spec :
    (renameSummary 0 0 = "No changes made") ∧
    (∀ r a, 0 < r → a = 0 →
      renameSummary r a = "Properties: renamed " ++ toString r) ∧
    (∀ r a, r = 0 → 0 < a →
      renameSummary r a = "Properties: added " ++ toString a) ∧
    (∀ r a, 0 < r → 0 < a →
      renameSummary r a
        = "Properties: renamed " ++ toString r ++ ", added " ++ toString a) ∧
    (editValuesSummary 0 0 = "No changes made") ∧
    (∀ u a, 0 < u → a = 0 →
      editValuesSummary u a = "Properties: updated " ++ toString u) ∧
    (∀ u a, u = 0 → 0 < a →
      editValuesSummary u a = "Properties: added " ++ toString a) ∧
    (∀ u a, 0 < u → 0 < a →
      editValuesSummary u a
        = "Properties: updated " ++ toString u ++ ", added " ++ toString a) ∧
    (∀ n m, addSummary n m ≠ "") ∧
    (∀ n m, removeSummary n m ≠ "") := by
  refine ⟨rfl, ?_, ?_, ?_, rfl, ?_, ?_, ?_, ?_, ?_⟩
  · intro r a hr ha
    subst ha
    simp [renameSummary, hr, String.intercalate, String.intercalate.go,
      ← String.append_assoc]
  · intro r a hr ha
    subst hr
    simp [renameSummary, ha, String.intercalate, String.intercalate.go,
      ← String.append_assoc]
  · intro r a hr ha
    simp [renameSummary, hr, ha, String.intercalate, String.intercalate.go,
      ← String.append_assoc]
    rw [String.append_assoc _ ", " "added "]
    rfl
  · intro u a hu ha
    subst ha
    simp [editValuesSummary, hu, String.intercalate, String.intercalate.go,
      ← String.append_assoc]
  · intro u a hu ha
    subst hu
    simp [editValuesSummary, ha, String.intercalate, String.intercalate.go,
      ← String.append_assoc]
  · intro u a hu ha
    simp [editValuesSummary, hu, ha, String.intercalate, String.intercalate.go,
      ← String.append_assoc]
    rw [String.append_assoc _ ", " "added "]
    rfl
  · intro n m h
    have h2 := congrArg String.length h
    simp [addSummary, String.length_append] at h2
    exact absurd h2.2 (by decide)
  · intro n m h
    have h2 := congrArg String.length h
    simp [removeSummary, String.length_append] at h2
    exact absurd h2.2 (by decide)

/-- Concrete instance of `summaries_spec` at small counter values. -/
theorem summaries_spec_witness :
    renameSummary 3 0 = "Properties: renamed 3" ∧
    renameSummary 3 2 = "Properties: renamed 3, added 2" ∧
    editValuesSummary 0 4 = "Properties: added 4" ∧
    addSummary 1 0 ≠ "" :=
  ⟨summaries_spec.2.1 3 0 (by decide) rfl,
   summaries_spec.2.2.2.1 3 2 (by decide) (by decide),
   summaries_spec.2.2.2.2.2.2.1 0 4 rfl (by decide),
   summaries_spec.2.2.2.2.2.2.2.2.1 1 0⟩

/-! ### Lemmas about the folder traversal -/

theorem getFilesFromFolder_no_descent (d : Int) (f : Forest) :
    ∀ cur, getFilesFromFolder false d f cur = directMdFiles f := by
  induction f with
  | nil => intro cur; rfl
  | consFile b e rest ih =>
      intro cur; simp [getFilesFromFolder, directMdFiles, ih]
  | consDir nm ch rest ihc ihr =>
      intro cur; simp [getFilesFromFolder, directMdFiles, ihr]

theorem getFilesFromFolder_unlimited (f : Forest) :
    ∀ cur, getFilesFromFolder true (-1) f cur = allMdFiles f := by
  induction f with
  | nil => intro cur; rfl
  | consFile b e rest ih =>
      intro cur; simp [getFilesFromFolder, allMdFiles, ih]
  | consDir nm ch rest ihc ihr =>
      intro cur; simp [getFilesFromFolder, allMdFiles, ihc, ihr]

theorem getFilesFromFolder_depth_general (f : Forest) :
    ∀ (n cur : Nat),
      getFilesFromFolder true ((n : Int) + (cur : Int)) f (cur : Int)
        = mdFilesToDepth f n := by
  induction f with
  | nil => intro n cur; rfl
  | consFile b e rest ih =>
      intro n cur; simp [getFilesFromFolder, mdFilesToDepth, ih]
  | consDir nm ch rest ihc ihr =>
      intro n cur
      have hbeq : (((n : Int) + (cur : Int)) == (-1 : Int)) = false := by
        simp only [beq_eq_false_iff_ne, ne_eq]
        omega
      cases n with
      | zero =>
          have hlt : (decide ((cur : Int) < ((0 : Nat) : Int) + (cur : Int)))
              = false := by
            simp only [decide_eq_false_iff_not, not_lt]
            omega
          simp only [getFilesFromFolder, hbeq, hlt, Bool.true_and,
            Bool.or_false, if_false, mdFilesToDepth, List.nil_append]
          exact ihr 0 cur
      | succ d =>
          have hlt : (decide ((cur : Int) < ((d + 1 : Nat) : Int) + (cur : Int)))
              = true := by
            simp only [decide_eq_true_eq]
            push_cast
            omega
          have harg : ((d + 1 : Nat) : Int) + (cur : Int)
              = ((d : Nat) : Int) + ((cur + 1 : Nat) : Int) := by push_cast; ring
          have harg2 : ((cur : Nat) : Int) + 1 = ((cur + 1 : Nat) : Int) := by
            push_cast; ring
          simp only [getFilesFromFolder, hbeq, hlt, Bool.true_and,
            Bool.or_true, if_true, mdFilesToDepth]
          rw [ihr (d + 1) cur, harg2, harg, ihc d (cur + 1)]

theorem mdFilesToDepth_zero (f : Forest) : mdFilesToDepth f 0 = directMdFiles f := by
  induction f with
  | nil => rfl
  | consFile b e rest ih => simp [mdFilesToDepth, directMdFiles, ih]
  | consDir nm ch rest ihc ihr => simp [mdFilesToDepth, directMdFiles, ihr]

theorem allMdFiles_length (f : Forest) : (allMdFiles f).length = countMd f := by
  induction f with
  | nil => rfl
  | consFile b e rest ih =>
      by_cases h : e = "md"
      · simp [allMdFiles, countMd, h, ih]
        omega
      · simp [allMdFiles, countMd, h, ih]
  | consDir nm ch rest ihc ihr => simp [allMdFiles, countMd, ihc, ihr]

/-- Claim C8: with `includeSubfolders = true`, `depthLevel = 0` yields
only the folder's direct Markdown children; `depthLevel = -1` yields every
Markdown file of the subtree, exactly once (the output is the canonical
subtree enumeration and its length is the number of Markdown file nodes);
a non-negative `depthLevel = N` descends at most `N` levels below the
starting folder; and `includeSubfolders = false` prevents all descent for
every `depthLevel`. -/
theorem getFilesFromFolder_depth_spec (f : Forest) :
    (getFilesFromFolder true 0 f 0 = directMdFiles f) ∧
    (getFilesFromFolder true (-1) f 0 = allMdFiles f) ∧
    ((getFilesFromFolder true (-1) f 0).length = countMd f) ∧
    (∀ n : Nat, getFilesFromFolder true (n : Int) f 0 = mdFilesToDepth f n) ∧
    (∀ d : Int, getFilesFromFolder false d f 0 = directMdFiles f) := by
  have hd : ∀ n : Nat, getFilesFromFolder true (n : Int) f 0 = mdFilesToDepth f n := by
    intro n
    have h := getFilesFromFolder_depth_general f n 0
    simpa using h
  refine ⟨?_, getFilesFromFolder_unlimited f 0, ?_, hd,
    fun d => getFilesFromFolder_no_descent d f 0⟩
  · have h := hd 0
    simpa [mdFilesToDepth_zero] using h
  · rw [getFilesFromFolder_unlimited f 0]
    exact allMdFiles_length f

/-- Counterexample to claim C9 as stated: in a folder whose children are
a subfolder (holding `a.md`) followed by the direct file `b.md`, the
traversal emits the descendant `a.md` before the direct file `b.md`, so
direct Markdown files are not emitted before recursion results. -/
theorem getFilesFromFolder_order_counterexample :
    getFilesFromFolder true (-1)
        (Forest.consDir "sub" (Forest.consFile "a" "md" Forest.nil)
          (Forest.consFile "b" "md" Forest.nil)) 0
      = [("a", "md"), ("b", "md")] ∧
    directMdFiles
        (Forest.consDir "sub" (Forest.consFile "a" "md" Forest.nil)
          (Forest.consFile "b" "md" Forest.nil))
      = [("b", "md")] ∧
    (getFilesFromFolder true (-1)
        (Forest.consDir "sub" (Forest.consFile "a" "md" Forest.nil)
          (Forest.consFile "b" "md" Forest.nil)) 0).take 1
      ≠ [("b", "md")] := by decide

/-- Claim C9 as amended: the traversal follows each folder's native child
ordering and splices each subfolder's recursively collected files in place
at that subfolder's position — it distributes over concatenation of child
lists, emits a Markdown file child at its own position, and expands a
subfolder child to its recursive file list (or nothing when descent is
off or the depth budget is spent). -/
theorem getFilesFromFolder_order_spec (inc : Bool) (d : Int) (f g ch : Forest)
    (cur : Int) (b nm : String) :
    (getFilesFromFolder inc d (forestAppend f g) cur
      = getFilesFromFolder inc d f cur ++ getFilesFromFolder inc d g cur) ∧
    (getFilesFromFolder inc d (Forest.consFile b "md" f) cur
      = (b, "md") :: getFilesFromFolder inc d f cur) ∧
    (getFilesFromFolder inc d (Forest.consDir nm ch f) cur
      = (if inc && (d == -1 || decide (cur < d))
         then getFilesFromFolder inc d ch (cur + 1) else [])
        ++ getFilesFromFolder inc d f cur) := by
  refine ⟨?_, by simp [getFilesFromFolder], by simp [getFilesFromFolder]⟩
  induction f with
  | nil => simp [forestAppend, getFilesFromFolder]
  | consFile b2 e2 rest ih =>
      simp [forestAppend, getFilesFromFolder, ih]
  | consDir nm2 ch2 rest ihc ihr =>
      simp [forestAppend, getFilesFromFolder, ihr]

end PropertiesCommander
